import Mathlib

/-
  Verification of the spine-engine scheduling/execution engine
  (src/spine_engine/spine_engine.py) against its specification.

  The Python module is shallowly embedded below.  Dictionaries become
  association lists (which preserve insertion order, as Python dicts do),
  a raised exception (KeyError at construction, dagster Failure inside a
  compute function) becomes Option.none, and the enum SpineEngineState
  becomes an inductive type.  Work items are records of pure functions;
  invocations of item methods are recorded in an explicit call log so that
  the statements below can speak about which item methods were invoked.
-/

namespace SpineEngine

/-- Engine run states, embedding the Python enum SpineEngineState. -/
inductive SpineEngineState where
  | SLEEPING
  | RUNNING
  | USER_STOPPED
  | FAILED
  | COMPLETED
deriving DecidableEq, Repr

/-- First-match lookup in an association list: the embedding of reading a
Python dict, where a present key yields some value and a missing key
yields none (a KeyError when the code indexes with brackets). -/
def lookupD {β : Type} : List (String × β) → String → Option β
  | [], _ => none
  | (k, b) :: t, key => if k = key then some b else lookupD t key

/-- The list stored in an injector map under a key, empty when the key is
absent: the embedding of the Python expression with a .get default. -/
def lookupLS (m : List (String × List String)) (k : String) : List String :=
  (lookupD m k).getD []

/-- One setdefault-and-append step of the dict inversion: if the key is
absent, a fresh singleton entry is appended at the end; otherwise the new
element is appended to the stored list. -/
def invUpdate (out : List (String × List String)) (v k : String) :
    List (String × List String) :=
  if lookupD out v = none then out ++ [(v, [k])]
  else out.map (fun p => if p.1 = v then (p.1, p.2 ++ [k]) else p)

/-- The inner loop of the dict inversion: fold invUpdate over one value
list, with the fixed originating key. -/
def innerFold (out : List (String × List String)) (l : List String)
    (k : String) : List (String × List String) :=
  l.foldl (fun o v => invUpdate o v k) out

/-- Embedding of the module-level function inverting a dictionary of list
values: keys of the result are list items of the input, and values list
the input keys holding that item. -/
def _inverted (input : List (String × List String)) :
    List (String × List String) :=
  input.foldl (fun out kv => innerFold out kv.2 kv.1) []

/-- Specification helper for proofs: the list of keys of m listing v,
with multiplicity and in iteration order.  lookupD over the result of
_inverted is characterised by this function. -/
def invList (m : List (String × List String)) (v : String) : List String :=
  match m with
  | [] => []
  | (k, l) :: t => List.replicate (l.count v) k ++ invList t v

/-- A work item, embedding the ProjectItem capability interface consumed
by the engine: a display name, a short name used as graph key, an execute
function and an output-resources function.  Resources are an opaque type
parameter. -/
structure Item (α : Type) where
  name : String
  short_name : String
  execute : List α → String → Bool
  output_resources : String → List α

/-- The dict from item name to item short name built at engine
construction. -/
def nameMap {α : Type} (items : List (Item α)) : List (String × String) :=
  items.map (fun i => (i.name, i.short_name))

/-- Translation of one successor-name list through the name map; none
embeds the KeyError raised when a name is unknown. -/
def mapShort (d : List (String × String)) : List String → Option (List String)
  | [] => some []
  | x :: t =>
    match lookupD d x, mapShort d t with
    | some s, some ts => some (s :: ts)
    | _, _ => none

/-- Embedding of the backward-injector dict comprehension at engine
construction: each successor entry is translated key and values through
the name map; none embeds the KeyError on an unknown name. -/
def backInjectors (d : List (String × String))
    (successors : List (String × List String)) :
    Option (List (String × List String)) :=
  match successors with
  | [] => some []
  | (k, l) :: t =>
    match lookupD d k, mapShort d l, backInjectors d t with
    | some sk, some sl, some rest => some ((sk, sl) :: rest)
    | _, _, _ => none

/-- One node of a pipeline: a work item with its direction-specific
injector list and its execution permit. -/
structure NodeSpec (α : Type) where
  item : Item α
  injectors : List String
  permit : Bool

/-- One pipeline of node specifications, built per item in item order:
the permit is looked up by item name (none embeds the KeyError on an
incomplete permit map) and the injector list by item short name with an
empty default. -/
def mkNodeSpecs {α : Type} (items : List (Item α))
    (inj : List (String × List String)) (permits : List (String × Bool)) :
    Option (List (NodeSpec α)) :=
  match items with
  | [] => some []
  | i :: t =>
    match lookupD permits i.name, mkNodeSpecs t inj permits with
    | some p, some rest =>
      some ({ item := i, injectors := lookupLS inj i.short_name, permit := p } :: rest)
    | _, _ => none

/-- An engine instance: the two pipelines built at construction plus the
process-wide state. -/
structure SpineEngineM (α : Type) where
  backNodes : List (NodeSpec α)
  forwardNodes : List (NodeSpec α)
  state : SpineEngineState

/-- Embedding of engine construction: build the name map, the backward
injectors from the successor mapping, the forward injectors by inversion,
and the two pipelines; none embeds an exception raised synchronously at
construction. -/
def mkEngine {α : Type} (items : List (Item α))
    (successors : List (String × List String))
    (permits : List (String × Bool)) : Option (SpineEngineM α) :=
  match backInjectors (nameMap items) successors with
  | none => none
  | some back =>
    match mkNodeSpecs items back permits,
          mkNodeSpecs items (_inverted back) permits with
    | some b, some f =>
      some { backNodes := b, forwardNodes := f,
             state := SpineEngineState.SLEEPING }
    | _, _ => none

/-- A recorded invocation of a work-item method during a pass. -/
inductive Call (α : Type) where
  | exec (inputs : List α) (dir : String)
  | outRes (dir : String)
deriving DecidableEq, Repr

/-- Terminal status of one node in one pass. -/
inductive NodeStatus (α : Type) where
  | succeeded (out : List α)
  | failed
  | skipped
deriving DecidableEq, Repr

/-- Embedding of the compute function the engine installs on every node:
fail fast when the process-wide state is USER_STOPPED or FAILED, then
flatten the input lists, invoke execute only when the permit is set and
fail on a false return, and otherwise yield the output resources.  The
second component records the item methods invoked, in order. -/
def computeFn {α : Type} (st : SpineEngineState) (permit : Bool)
    (item : Item α) (inputs : List (List α)) (dir : String) :
    Option (List α) × List (Call α) :=
  if st = SpineEngineState.USER_STOPPED ∨ st = SpineEngineState.FAILED then
    (none, [])
  else
    let flat := inputs.flatten
    if permit then
      if item.execute flat dir then
        (some (item.output_resources dir), [Call.exec flat dir, Call.outRes dir])
      else (none, [Call.exec flat dir])
    else (some (item.output_resources dir), [Call.outRes dir])

/-- Embedding of the run-loop reaction to a step-failure event: the state
becomes FAILED unless it is already USER_STOPPED, which is kept. -/
def onStepFailure (st : SpineEngineState) : SpineEngineState :=
  if st ≠ SpineEngineState.USER_STOPPED then SpineEngineState.FAILED else st

/-- Modelled from the spec: the recorded status of a node in the result
log of a pass, none when the node has not run.  The Dependency Scheduler
itself is the external dagster pipeline executor, absent from this
repository; sections 4.2 and 9 of the specification define it. -/
def statusOf {α : Type} : List (String × NodeStatus α) → String →
    Option (NodeStatus α)
  | [], _ => none
  | (k, s) :: t, n => if k = n then some s else statusOf t n

/-- Modelled from the spec: the output a node contributes downstream,
empty unless it succeeded. -/
def outputOf {α : Type} (results : List (String × NodeStatus α))
    (n : String) : List α :=
  match statusOf results n with
  | some (NodeStatus.succeeded out) => out
  | _ => []

/-- Modelled from the spec: a predecessor is in good standing exactly
when it has succeeded; failed, skipped and not-yet-run predecessors make
the dependent node skip. -/
def predOk {α : Type} (results : List (String × NodeStatus α))
    (n : String) : Bool :=
  match statusOf results n with
  | some (NodeStatus.succeeded _) => true
  | _ => false

/-- Modelled from the spec: the aggregated inputs of a node, one output
list per injector, in injector-list order. -/
def gatherInputs {α : Type} (results : List (String × NodeStatus α))
    (inj : List String) : List (List α) :=
  inj.map (outputOf results)

/-- State of one scheduler pass: the process-wide engine state, the
per-node result log, the per-node gathered-input log, and the item-method
call log. -/
structure PassState (α : Type) where
  engine : SpineEngineState
  results : List (String × NodeStatus α)
  inputsLog : List (String × List (List α))
  calls : List (String × Call α)

/-- Modelled from the spec: one scheduler step on one node.  A node with
any predecessor not in good standing is skipped without running its
compute function; otherwise its inputs are gathered in injector order and
the compute function runs, a none result counting as a step failure that
is fed to the run-loop state update. -/
def stepNode {α : Type} (ps : PassState α) (ns : NodeSpec α) (dir : String) :
    PassState α :=
  if ns.injectors.all (predOk ps.results) then
    let inputs := gatherInputs ps.results ns.injectors
    let rc := computeFn ps.engine ns.permit ns.item inputs dir
    match rc.1 with
    | some out =>
      { engine := ps.engine
        results := ps.results ++ [(ns.item.short_name, NodeStatus.succeeded out)]
        inputsLog := ps.inputsLog ++ [(ns.item.short_name, inputs)]
        calls := ps.calls ++ rc.2.map (fun c => (ns.item.short_name, c)) }
    | none =>
      { engine := onStepFailure ps.engine
        results := ps.results ++ [(ns.item.short_name, NodeStatus.failed)]
        inputsLog := ps.inputsLog ++ [(ns.item.short_name, inputs)]
        calls := ps.calls ++ rc.2.map (fun c => (ns.item.short_name, c)) }
  else
    { ps with results := ps.results ++ [(ns.item.short_name, NodeStatus.skipped)] }

/-- Modelled from the spec: a whole scheduler pass, stepping the nodes in
a given order that is expected to respect the injector lists. -/
def runPassAux {α : Type} (ps : PassState α) (nodes : List (NodeSpec α))
    (dir : String) : PassState α :=
  nodes.foldl (fun p n => stepNode p n dir) ps

/-- Modelled from the spec: a scheduler pass started with an empty log
from a given engine state. -/
def runPass {α : Type} (nodes : List (NodeSpec α)) (dir : String)
    (st : SpineEngineState) : PassState α :=
  runPassAux { engine := st, results := [], inputsLog := [], calls := [] } nodes dir

/-- Outcome of one engine run: the final state and the two pass logs. -/
structure RunOutcome (α : Type) where
  state : SpineEngineState
  backward : PassState α
  forward : PassState α

/-- Embedding of the run method: set the state to RUNNING, run the
backward pass then the forward pass on the shared state, and finally
promote a still-RUNNING state to COMPLETED. -/
def run {α : Type} (e : SpineEngineM α) : RunOutcome α :=
  let ps1 := runPass e.backNodes "backward" SpineEngineState.RUNNING
  let ps2 : PassState α := runPassAux
    { engine := ps1.engine, results := [], inputsLog := [], calls := [] }
    e.forwardNodes "forward"
  let final := if ps2.engine = SpineEngineState.RUNNING
    then SpineEngineState.COMPLETED else ps2.engine
  { state := final, backward := ps1, forward := ps2 }

/-- Embedding of the stop method on the state cell: the state is set to
USER_STOPPED unconditionally. -/
def stop {α : Type} (e : SpineEngineM α) : SpineEngineM α :=
  { e with state := SpineEngineState.USER_STOPPED }

/-- Setting the state cell of an engine, used to compare runs from
different prior states. -/
def setState {α : Type} (e : SpineEngineM α) (s : SpineEngineState) :
    SpineEngineM α :=
  { e with state := s }

/-- True exactly on the failed status. -/
def isFailedStatus {α : Type} : NodeStatus α → Bool
  | NodeStatus.failed => true
  | _ => false

/-- True when some node in the result log failed. -/
def hasFailed {α : Type} (results : List (String × NodeStatus α)) : Bool :=
  results.any (fun r => isFailedStatus r.2)

/-- Modelled from the spec: B transitively depends on A within a node
list when a chain of injector-list edges leads from A to B. -/
inductive TransDep {α : Type} (nodes : List (NodeSpec α)) : String → String → Prop
  | direct {A : String} {ns : NodeSpec α} (hmem : ns ∈ nodes)
      (hin : A ∈ ns.injectors) : TransDep nodes A ns.item.short_name
  | step {A C : String} {ns : NodeSpec α} (h : TransDep nodes A C)
      (hmem : ns ∈ nodes) (hin : C ∈ ns.injectors) :
      TransDep nodes A ns.item.short_name

/-- Concrete item that executes successfully, used in closed instances of
the theorems below. -/
def witItemT : Item Nat :=
  { name := "item t"
    short_name := "t"
    execute := fun _ _ => true
    output_resources := fun _ => [7] }

/-- Concrete item whose execute reports failure, used in closed instances
of the theorems below. -/
def witItemF : Item Nat :=
  { name := "item f"
    short_name := "f"
    execute := fun _ _ => false
    output_resources := fun _ => [9] }

/-- Concrete item acting as an already-succeeded predecessor, used in
closed instances of the theorems below. -/
def witItemP : Item Nat :=
  { name := "item p"
    short_name := "p"
    execute := fun _ _ => true
    output_resources := fun _ => [5] }

/-- Concrete pass state with a RUNNING engine and empty logs. -/
def witPSRun : PassState Nat :=
  { engine := SpineEngineState.RUNNING, results := [], inputsLog := [], calls := [] }

/-- Concrete pass state with a USER_STOPPED engine and empty logs. -/
def witPSUS : PassState Nat :=
  { engine := SpineEngineState.USER_STOPPED, results := [], inputsLog := [], calls := [] }

/-- Concrete pass state with a FAILED engine and one succeeded node. -/
def witPSF : PassState Nat :=
  { engine := SpineEngineState.FAILED
    results := [("p", NodeStatus.succeeded [5])]
    inputsLog := []
    calls := [] }

/-- Concrete pass state with a RUNNING engine and one succeeded node. -/
def witPSP : PassState Nat :=
  { engine := SpineEngineState.RUNNING
    results := [("p", NodeStatus.succeeded [5])]
    inputsLog := []
    calls := [] }

/-- Concrete node whose item fails, with no injectors and permit set. -/
def witNodeF : NodeSpec Nat := { item := witItemF, injectors := [], permit := true }

/-- Concrete node depending on the failing node. -/
def witNodeDep : NodeSpec Nat := { item := witItemT, injectors := ["f"], permit := true }

/-- Concrete node depending on the succeeded node, with permit unset. -/
def witNodePF : NodeSpec Nat := { item := witItemT, injectors := ["p"], permit := false }

/-- Concrete node depending on the succeeded node, with permit set. -/
def witNodePT : NodeSpec Nat := { item := witItemT, injectors := ["p"], permit := true }

/-! ## Association-list lemmas -/

@[simp] theorem lookupD_nil {β : Type} (k : String) :
    lookupD ([] : List (String × β)) k = none := rfl

@[simp] theorem lookupD_cons {β : Type} (k0 : String) (b0 : β)
    (t : List (String × β)) (key : String) :
    lookupD ((k0, b0) :: t) key = if k0 = key then some b0 else lookupD t key :=
  rfl

theorem lookupD_append {β : Type} (xs ys : List (String × β)) (k : String) :
    lookupD (xs ++ ys) k =
      match lookupD xs k with
      | some b => some b
      | none => lookupD ys k := by
  induction xs with
  | nil => simp
  | cons h t ih =>
    obtain ⟨k0, b0⟩ := h
    by_cases hk : k0 = k <;> simp [hk, ih]

theorem lookupD_eq_none_iff {β : Type} (m : List (String × β)) (k : String) :
    lookupD m k = none ↔ k ∉ m.map Prod.fst := by
  induction m with
  | nil => simp
  | cons h t ih =>
    obtain ⟨k0, b0⟩ := h
    by_cases hk : k0 = k
    · subst hk
      simp
    · have hkk : ¬ k = k0 := fun e => hk e.symm
      simp [hk, ih, hkk]

theorem lookupD_map_update (t : List (String × List String)) (v k n : String) :
    lookupD (t.map (fun p => if p.1 = v then (p.1, p.2 ++ [k]) else p)) n =
      if n = v then Option.map (fun l => l ++ [k]) (lookupD t n)
      else lookupD t n := by
  induction t with
  | nil => by_cases h : n = v <;> simp [h]
  | cons p t ih =>
    obtain ⟨k0, b0⟩ := p
    show lookupD ((if k0 = v then (k0, b0 ++ [k]) else (k0, b0)) ::
        t.map (fun p => if p.1 = v then (p.1, p.2 ++ [k]) else p)) n = _
    by_cases hv : k0 = v <;> by_cases hn : k0 = n
    · subst hn
      subst hv
      simp
    · subst hv
      have hnv : ¬ n = k0 := fun e => hn e.symm
      simp [hn, hnv, ih]
    · subst hn
      simp [hv]
    · simp [hv, hn, ih]

theorem lookupD_invUpdate_self (out : List (String × List String))
    (v k : String) :
    lookupD (invUpdate out v k) v = some ((lookupD out v).getD [] ++ [k]) := by
  unfold invUpdate
  by_cases h : lookupD out v = none
  · rw [if_pos h, lookupD_append, h]
    simp [lookupD]
  · rw [if_neg h, lookupD_map_update, if_pos rfl]
    cases hx : lookupD out v with
    | none => exact absurd hx h
    | some l => simp

theorem lookupD_invUpdate_ne (out : List (String × List String))
    (v k n : String) (hne : n ≠ v) :
    lookupD (invUpdate out v k) n = lookupD out n := by
  unfold invUpdate
  by_cases h : lookupD out v = none
  · rw [if_pos h, lookupD_append]
    cases hx : lookupD out n with
    | some b => rfl
    | none =>
      have hvn : ¬ v = n := fun e => hne e.symm
      simp [lookupD, hvn]
  · rw [if_neg h, lookupD_map_update, if_neg hne]

theorem lookupD_innerFold (l : List String) (k : String)
    (out : List (String × List String)) (v : String) :
    lookupD (innerFold out l k) v =
      if v ∈ l ∨ lookupD out v ≠ none
      then some ((lookupD out v).getD [] ++ List.replicate (l.count v) k)
      else none := by
  induction l generalizing out with
  | nil =>
    cases hx : lookupD out v with
    | none => simp [innerFold, hx]
    | some b => simp [innerFold, hx]
  | cons a t ih =>
    show lookupD (innerFold (invUpdate out a k) t k) v = _
    rw [ih]
    by_cases hav : a = v
    · subst hav
      rw [lookupD_invUpdate_self]
      rw [if_pos (Or.inr (by simp)), if_pos (Or.inl (List.mem_cons_self a t))]
      simp [List.count_cons_self, List.replicate_succ, List.append_assoc]
    · have hva : v ≠ a := fun e => hav e.symm
      rw [lookupD_invUpdate_ne out a k v hva]
      rw [List.count_cons_of_ne hva t]
      by_cases hc : v ∈ t ∨ lookupD out v ≠ none
      · rw [if_pos hc]
        rcases hc with hc | hc
        · rw [if_pos (Or.inl (List.mem_cons_of_mem a hc))]
        · rw [if_pos (Or.inr hc)]
      · rw [if_neg hc, if_neg ?_]
        intro hc2
        rcases hc2 with hc2 | hc2
        · rcases List.mem_cons.mp hc2 with he | hm2
          · exact hva he
          · exact hc (Or.inl hm2)
        · exact hc (Or.inr hc2)

theorem lookupD_outerFold (m : List (String × List String))
    (out : List (String × List String)) (v : String) :
    lookupD (m.foldl (fun o kv => innerFold o kv.2 kv.1) out) v =
      if invList m v ≠ [] ∨ lookupD out v ≠ none
      then some ((lookupD out v).getD [] ++ invList m v)
      else none := by
  induction m generalizing out with
  | nil =>
    cases hx : lookupD out v with
    | none => simp [invList, hx]
    | some b => simp [invList, hx]
  | cons p t ih =>
    obtain ⟨k0, l0⟩ := p
    show lookupD (t.foldl (fun o kv => innerFold o kv.2 kv.1)
      (innerFold out l0 k0)) v = _
    rw [ih, lookupD_innerFold]
    by_cases hc : v ∈ l0 ∨ lookupD out v ≠ none
    · rw [if_pos hc]
      have hcons : invList ((k0, l0) :: t) v ≠ [] ∨ lookupD out v ≠ none := by
        rcases hc with hmem | hlk
        · left
          have hcnt : l0.count v ≠ 0 := fun e => (List.count_eq_zero.mp e) hmem
          simp only [invList]
          intro he
          rcases List.append_eq_nil.mp he with ⟨h1, _⟩
          exact hcnt (by simpa using congrArg List.length h1)
        · right
          exact hlk
      rw [if_pos (by simp), if_pos hcons]
      simp [invList, List.append_assoc]
    · rw [if_neg hc]
      push_neg at hc
      obtain ⟨hmem, hlk⟩ := hc
      have hcnt : l0.count v = 0 := List.count_eq_zero.mpr hmem
      have hinv : invList ((k0, l0) :: t) v = invList t v := by
        simp [invList, hcnt]
      by_cases ht : invList t v = []
      · rw [if_neg (by simp [ht]), if_neg (by simp [hinv, ht, hlk])]
      · rw [if_pos (Or.inl ht), if_pos (Or.inl (by simp [hinv, ht]))]
        simp [hinv, hlk]

theorem lookupD_inverted (m : List (String × List String)) (v : String) :
    lookupD (_inverted m) v =
      if invList m v = [] then none else some (invList m v) := by
  show lookupD (m.foldl (fun o kv => innerFold o kv.2 kv.1) []) v = _
  rw [lookupD_outerFold]
  by_cases h : invList m v = [] <;> simp [h]

theorem lookupLS_inverted (m : List (String × List String)) (v : String) :
    lookupLS (_inverted m) v = invList m v := by
  rw [lookupLS, lookupD_inverted]
  by_cases h : invList m v = [] <;> simp [h]

theorem mem_invList {m : List (String × List String)} {k v : String} :
    k ∈ invList m v ↔ ∃ l, (k, l) ∈ m ∧ v ∈ l := by
  induction m with
  | nil => simp [invList]
  | cons p t ih =>
    obtain ⟨k0, l0⟩ := p
    simp only [invList, List.mem_append, List.mem_replicate, ih, List.mem_cons]
    constructor
    · rintro (⟨hc, he⟩ | ⟨l, hl, hv⟩)
      · exact ⟨l0, Or.inl (by rw [he]), by
          by_contra hnm
          exact hc (List.count_eq_zero.mpr hnm)⟩
      · exact ⟨l, Or.inr hl, hv⟩
    · rintro ⟨l, hl | hl, hv⟩
      · cases hl
        exact Or.inl ⟨fun e => (List.count_eq_zero.mp e) hv, rfl⟩
      · exact Or.inr ⟨l, hl, hv⟩

theorem keys_map_update (t : List (String × List String)) (v k : String) :
    (t.map (fun p => if p.1 = v then (p.1, p.2 ++ [k]) else p)).map Prod.fst =
      t.map Prod.fst := by
  induction t with
  | nil => simp
  | cons p t ih =>
    obtain ⟨k0, b0⟩ := p
    by_cases hv : k0 = v <;> simp [hv, ih]

theorem nodup_keys_invUpdate {out : List (String × List String)} {v k : String}
    (h : (out.map Prod.fst).Nodup) :
    ((invUpdate out v k).map Prod.fst).Nodup := by
  unfold invUpdate
  by_cases hl : lookupD out v = none
  · rw [if_pos hl, List.map_append]
    have hv : v ∉ out.map Prod.fst := (lookupD_eq_none_iff out v).mp hl
    simp only [List.map_cons, List.map_nil]
    rw [List.nodup_append]
    refine ⟨h, List.nodup_singleton v, ?_⟩
    intro a ha hax
    have hav : a = v := List.mem_singleton.mp hax
    exact hv (hav ▸ ha)
  · rw [if_neg hl, keys_map_update]
    exact h

theorem nodup_keys_innerFold {out : List (String × List String)}
    (l : List String) (k : String) (h : (out.map Prod.fst).Nodup) :
    ((innerFold out l k).map Prod.fst).Nodup := by
  induction l generalizing out with
  | nil => exact h
  | cons a t ih =>
    show ((innerFold (invUpdate out a k) t k).map Prod.fst).Nodup
    exact ih (nodup_keys_invUpdate h)

theorem nodup_keys_inverted (m : List (String × List String)) :
    ((_inverted m).map Prod.fst).Nodup := by
  have haux : ∀ (out : List (String × List String)),
      (out.map Prod.fst).Nodup →
      ((m.foldl (fun o kv => innerFold o kv.2 kv.1) out).map Prod.fst).Nodup := by
    induction m with
    | nil => exact fun out h => h
    | cons p t ih =>
      intro out h
      exact ih (innerFold out p.2 p.1) (nodup_keys_innerFold p.2 p.1 h)
  exact haux [] (by simp)

theorem lookupD_eq_some_iff_mem {β : Type} {m : List (String × β)}
    (h : (m.map Prod.fst).Nodup) (k : String) (b : β) :
    lookupD m k = some b ↔ (k, b) ∈ m := by
  induction m with
  | nil => simp
  | cons p t ih =>
    obtain ⟨k0, b0⟩ := p
    rw [List.map_cons, List.nodup_cons] at h
    obtain ⟨h1, h2⟩ := h
    by_cases hk : k0 = k
    · subst hk
      rw [lookupD_cons, if_pos rfl]
      constructor
      · intro he
        injection he with he
        rw [← he]
        exact List.mem_cons_self _ _
      · intro hm
        rcases List.mem_cons.mp hm with he | hm
        · cases he
          rfl
        · exact absurd (List.mem_map_of_mem Prod.fst hm) h1
    · have hkk : ¬ (k, b) = (k0, b0) := fun e => hk (congrArg Prod.fst e).symm
      rw [lookupD_cons, if_neg hk, ih h2, List.mem_cons]
      simp [hkk]

theorem mem_lookupLS_iff {m : List (String × List String)} {k v : String} :
    v ∈ lookupLS m k ↔ ∃ l, lookupD m k = some l ∧ v ∈ l := by
  cases h : lookupD m k with
  | none => simp [lookupLS, h]
  | some l => simp [lookupLS, h]

/-! ## Scheduler-pass lemmas -/

theorem statusOf_eq_lookupD {α : Type} (m : List (String × NodeStatus α))
    (n : String) : statusOf m n = lookupD m n := by
  induction m with
  | nil => rfl
  | cons p t ih =>
    obtain ⟨k, s⟩ := p
    by_cases h : k = n <;> simp [statusOf, h, ih]

theorem statusOf_append_left {α : Type} {xs : List (String × NodeStatus α)}
    (ys : List (String × NodeStatus α)) {n : String} {s : NodeStatus α}
    (h : statusOf xs n = some s) : statusOf (xs ++ ys) n = some s := by
  rw [statusOf_eq_lookupD] at h ⊢
  rw [lookupD_append, h]

theorem statusOf_append_right {α : Type} {xs : List (String × NodeStatus α)}
    (ys : List (String × NodeStatus α)) {n : String}
    (h : n ∉ xs.map Prod.fst) : statusOf (xs ++ ys) n = statusOf ys n := by
  rw [statusOf_eq_lookupD, statusOf_eq_lookupD, lookupD_append,
    (lookupD_eq_none_iff xs n).mpr h]

theorem predOk_eq_true_iff {α : Type} (results : List (String × NodeStatus α))
    (n : String) :
    predOk results n = true ↔
      ∃ out, statusOf results n = some (NodeStatus.succeeded out) := by
  cases h : statusOf results n with
  | none => simp [predOk, h]
  | some s => cases s <;> simp [predOk, h]

theorem isFailedStatus_eq_false {α : Type} {st : NodeStatus α}
    (h : st ≠ NodeStatus.failed) : isFailedStatus st = false := by
  cases st <;> simp_all [isFailedStatus]

theorem computeFn_stuck {α : Type} (st : SpineEngineState) (permit : Bool)
    (item : Item α) (inputs : List (List α)) (dir : String)
    (h : st = SpineEngineState.USER_STOPPED ∨ st = SpineEngineState.FAILED) :
    computeFn st permit item inputs dir = (none, []) := by
  rw [computeFn, if_pos h]

theorem stepNode_cases {α : Type} (ps : PassState α) (ns : NodeSpec α)
    (dir : String) :
    ((stepNode ps ns dir).engine = ps.engine ∧
      ∃ st, st ≠ NodeStatus.failed ∧
        (stepNode ps ns dir).results =
          ps.results ++ [(ns.item.short_name, st)]) ∨
    ((stepNode ps ns dir).engine = onStepFailure ps.engine ∧
      (stepNode ps ns dir).results =
        ps.results ++ [(ns.item.short_name, NodeStatus.failed)]) := by
  by_cases hp : ns.injectors.all (predOk ps.results) = true
  · cases hc : (computeFn ps.engine ns.permit ns.item
        (gatherInputs ps.results ns.injectors) dir).1 with
    | some out =>
      left
      refine ⟨by simp [stepNode, hp, hc], NodeStatus.succeeded out, by simp,
        by simp [stepNode, hp, hc]⟩
    | none =>
      right
      exact ⟨by simp [stepNode, hp, hc], by simp [stepNode, hp, hc]⟩
  · left
    refine ⟨by simp [stepNode, hp], NodeStatus.skipped, by simp,
      by simp [stepNode, hp]⟩

theorem stepNode_results {α : Type} (ps : PassState α) (ns : NodeSpec α)
    (dir : String) :
    ∃ st, (stepNode ps ns dir).results =
      ps.results ++ [(ns.item.short_name, st)] := by
  rcases stepNode_cases ps ns dir with ⟨_, st, _, h⟩ | ⟨_, h⟩
  · exact ⟨st, h⟩
  · exact ⟨NodeStatus.failed, h⟩

theorem runPassAux_results {α : Type} (nodes : List (NodeSpec α))
    (ps : PassState α) (dir : String) :
    ∃ suf, (runPassAux ps nodes dir).results = ps.results ++ suf ∧
      suf.map Prod.fst = nodes.map (fun ns => ns.item.short_name) := by
  induction nodes generalizing ps with
  | nil => exact ⟨[], by simp [runPassAux]⟩
  | cons n t ih =>
    obtain ⟨st, hst⟩ := stepNode_results ps n dir
    obtain ⟨suf, hsuf, hmap⟩ := ih (stepNode ps n dir)
    refine ⟨(n.item.short_name, st) :: suf, ?_, by simp [hmap]⟩
    show (runPassAux (stepNode ps n dir) t dir).results = _
    rw [hsuf, hst]
    simp

theorem statusOf_runPassAux_persist {α : Type} {nodes : List (NodeSpec α)}
    {ps : PassState α} {dir : String} {n : String} {s : NodeStatus α}
    (h : statusOf ps.results n = some s) :
    statusOf (runPassAux ps nodes dir).results n = some s := by
  obtain ⟨suf, hsuf, _⟩ := runPassAux_results nodes ps dir
  rw [hsuf]
  exact statusOf_append_left suf h

theorem skip_of_bad_pred {α : Type} {nodes : List (NodeSpec α)} {dir : String}
    {st0 : SpineEngineState} {A : String} {B : NodeSpec α}
    (hnd : (nodes.map (fun ns => ns.item.short_name)).Nodup)
    (hB : B ∈ nodes) (hA : A ∈ B.injectors)
    (hbad : ∀ out, statusOf (runPass nodes dir st0).results A ≠
      some (NodeStatus.succeeded out)) :
    statusOf (runPass nodes dir st0).results B.item.short_name =
      some NodeStatus.skipped := by
  obtain ⟨pre, post, hsplit⟩ := List.append_of_mem hB
  subst hsplit
  rw [List.map_append, List.map_cons, List.nodup_append] at hnd
  obtain ⟨hnd1, hnd2, hdisj⟩ := hnd
  have hBpre : B.item.short_name ∉ pre.map (fun ns => ns.item.short_name) :=
    fun hmem => hdisj hmem (List.mem_cons_self _ _)
  set ps0 : PassState α :=
    { engine := st0, results := [], inputsLog := [], calls := [] } with hps0
  have hfold : runPass (pre ++ B :: post) dir st0 =
      runPassAux (stepNode (runPassAux ps0 pre dir) B dir) post dir := by
    rw [runPass, runPassAux, List.foldl_append]
    rfl
  set psB := runPassAux ps0 pre dir with hpsB
  have hkeys : psB.results.map Prod.fst = pre.map (fun ns => ns.item.short_name) := by
    obtain ⟨suf, hsuf, hmap⟩ := runPassAux_results pre ps0 dir
    rw [← hpsB] at hsuf
    rw [hsuf]
    simpa using hmap
  have hnotyet : B.item.short_name ∉ psB.results.map Prod.fst := by
    rw [hkeys]
    exact hBpre
  have hAbad : predOk psB.results A = false := by
    by_contra hc
    have hc2 : predOk psB.results A = true := by
      cases h2 : predOk psB.results A
      · exact absurd h2 hc
      · rfl
    obtain ⟨out, hout⟩ := (predOk_eq_true_iff psB.results A).mp hc2
    have hpersist : statusOf (runPass (pre ++ B :: post) dir st0).results A =
        some (NodeStatus.succeeded out) := by
      rw [hfold]
      apply statusOf_runPassAux_persist
      obtain ⟨st, hst⟩ := stepNode_results psB B dir
      rw [hst]
      exact statusOf_append_left _ hout
    exact hbad out hpersist
  have hall : ¬ (B.injectors.all (predOk psB.results) = true) := by
    intro hc
    have := List.all_eq_true.mp hc A hA
    rw [hAbad] at this
    exact Bool.noConfusion this
  have hstep : (stepNode psB B dir).results =
      psB.results ++ [(B.item.short_name, NodeStatus.skipped)] := by
    simp [stepNode, hall]
  rw [hfold]
  apply statusOf_runPassAux_persist
  rw [hstep, statusOf_append_right _ hnotyet]
  simp [statusOf]

theorem skip_cascade {α : Type} {nodes : List (NodeSpec α)} {dir : String}
    {st0 : SpineEngineState} {A B : String}
    (hnd : (nodes.map (fun ns => ns.item.short_name)).Nodup)
    (hbad : ∀ out, statusOf (runPass nodes dir st0).results A ≠
      some (NodeStatus.succeeded out))
    (hdep : TransDep nodes A B) :
    statusOf (runPass nodes dir st0).results B = some NodeStatus.skipped := by
  induction hdep with
  | direct hmem hin => exact skip_of_bad_pred hnd hmem hin hbad
  | step h hmem hin ih =>
    refine skip_of_bad_pred hnd hmem hin ?_
    intro out hc
    have hcontra := ih.symm.trans hc
    simp at hcontra

/-! ## Engine-state evolution lemmas -/

theorem onStepFailure_FAILED :
    onStepFailure SpineEngineState.FAILED = SpineEngineState.FAILED := rfl

theorem onStepFailure_USER_STOPPED :
    onStepFailure SpineEngineState.USER_STOPPED =
      SpineEngineState.USER_STOPPED := rfl

theorem onStepFailure_RUNNING :
    onStepFailure SpineEngineState.RUNNING = SpineEngineState.FAILED := rfl

theorem runPassAux_engine_held {α : Type} (nodes : List (NodeSpec α))
    (ps : PassState α) (dir : String)
    (h : onStepFailure ps.engine = ps.engine) :
    (runPassAux ps nodes dir).engine = ps.engine := by
  induction nodes generalizing ps with
  | nil => rfl
  | cons n t ih =>
    show (runPassAux (stepNode ps n dir) t dir).engine = _
    have hstep : (stepNode ps n dir).engine = ps.engine := by
      rcases stepNode_cases ps n dir with ⟨he, _⟩ | ⟨he, _⟩
      · exact he
      · rw [he, h]
    rw [← hstep]
    apply ih
    rw [hstep, h]

theorem hasFailed_cons {α : Type} (n : String) (st : NodeStatus α)
    (suf : List (String × NodeStatus α)) :
    hasFailed ((n, st) :: suf) = (isFailedStatus st || hasFailed suf) := rfl

theorem runPassAux_engine_dichotomy {α : Type} (nodes : List (NodeSpec α))
    (ps : PassState α) (dir : String)
    (h : ps.engine = SpineEngineState.RUNNING) :
    ∃ suf, (runPassAux ps nodes dir).results = ps.results ++ suf ∧
      (((runPassAux ps nodes dir).engine = SpineEngineState.RUNNING ∧
          hasFailed suf = false) ∨
        ((runPassAux ps nodes dir).engine = SpineEngineState.FAILED ∧
          hasFailed suf = true)) := by
  induction nodes generalizing ps with
  | nil =>
    refine ⟨[], by simp [runPassAux], Or.inl ⟨h, rfl⟩⟩
  | cons n t ih =>
    rcases stepNode_cases ps n dir with ⟨heng, st, hstne, hres⟩ | ⟨heng, hres⟩
    · have h1 : (stepNode ps n dir).engine = SpineEngineState.RUNNING := by
        rw [heng, h]
      obtain ⟨suf, hsuf, hdich⟩ := ih (stepNode ps n dir) h1
      refine ⟨(n.item.short_name, st) :: suf, ?_, ?_⟩
      · show (runPassAux (stepNode ps n dir) t dir).results = _
        rw [hsuf, hres]
        simp
      · rw [hasFailed_cons, isFailedStatus_eq_false hstne]
        simpa using hdich
    · have h1 : (stepNode ps n dir).engine = SpineEngineState.FAILED := by
        rw [heng, h, onStepFailure_RUNNING]
      obtain ⟨suf, hsuf, _⟩ :=
        runPassAux_results t (stepNode ps n dir) dir
      refine ⟨(n.item.short_name, NodeStatus.failed) :: suf, ?_, Or.inr ⟨?_, rfl⟩⟩
      · show (runPassAux (stepNode ps n dir) t dir).results = _
        rw [hsuf, hres]
        simp
      · show (runPassAux (stepNode ps n dir) t dir).engine = _
        exact h1 ▸ runPassAux_engine_held t (stepNode ps n dir) dir (by rw [h1]; rfl)

/-! ## Construction lemmas -/

theorem nameMap_keys {α : Type} (items : List (Item α)) :
    (nameMap items).map Prod.fst = items.map Item.name := by
  simp [nameMap]

theorem mapShort_none_of_mem {d : List (String × String)} {l : List String}
    {x : String} (hx : x ∈ l) (hnone : lookupD d x = none) :
    mapShort d l = none := by
  induction l with
  | nil => cases hx
  | cons a t ih =>
    rcases List.mem_cons.mp hx with he | hm
    · subst he
      rw [mapShort, hnone]
    · rw [mapShort, ih hm]
      cases lookupD d a <;> rfl

theorem backInjectors_none {d : List (String × String)}
    {successors : List (String × List String)} {k : String} {l : List String}
    (hkl : (k, l) ∈ successors) (hnone : mapShort d l = none) :
    backInjectors d successors = none := by
  induction successors with
  | nil => cases hkl
  | cons p t ih =>
    obtain ⟨k0, l0⟩ := p
    rcases List.mem_cons.mp hkl with he | hm
    · cases he
      rw [backInjectors, hnone]
      cases lookupD d k <;> cases backInjectors d t <;> rfl
    · rw [backInjectors, ih hm]
      cases lookupD d k0 <;> cases mapShort d l0 <;> rfl

theorem backInjectors_mem {d : List (String × String)}
    {successors : List (String × List String)}
    {back : List (String × List String)} {k : String} {l : List String}
    (hb : backInjectors d successors = some back) (hkl : (k, l) ∈ successors) :
    ∃ sk sl, lookupD d k = some sk ∧ mapShort d l = some sl ∧
      (sk, sl) ∈ back := by
  induction successors generalizing back with
  | nil => cases hkl
  | cons p t ih =>
    obtain ⟨k0, l0⟩ := p
    cases hk0 : lookupD d k0 with
    | none => rw [backInjectors, hk0] at hb; exact Option.noConfusion hb
    | some sk0 =>
      cases hl0 : mapShort d l0 with
      | none =>
        rw [backInjectors, hk0, hl0] at hb
        cases ht : backInjectors d t <;> rw [ht] at hb <;>
          exact Option.noConfusion hb
      | some sl0 =>
        cases ht : backInjectors d t with
        | none =>
          rw [backInjectors, hk0, hl0, ht] at hb
          exact Option.noConfusion hb
        | some rest =>
          rw [backInjectors, hk0, hl0, ht] at hb
          have hback : back = (sk0, sl0) :: rest := (Option.some.inj hb).symm
          subst hback
          rcases List.mem_cons.mp hkl with he | hm
          · cases he
            exact ⟨sk0, sl0, hk0, hl0, List.mem_cons_self _ _⟩
          · obtain ⟨sk, sl, h1, h2, h3⟩ := ih ht hm
            exact ⟨sk, sl, h1, h2, List.mem_cons_of_mem _ h3⟩

theorem backInjectors_mem_rev {d : List (String × String)}
    {successors : List (String × List String)}
    {back : List (String × List String)}
    (hb : backInjectors d successors = some back)
    {p : String × List String} (hp : p ∈ back) :
    ∃ k l, (k, l) ∈ successors ∧ lookupD d k = some p.1 ∧
      mapShort d l = some p.2 := by
  induction successors generalizing back with
  | nil =>
    rw [backInjectors] at hb
    have hbe : back = [] := (Option.some.inj hb).symm
    subst hbe
    cases hp
  | cons q t ih =>
    obtain ⟨k0, l0⟩ := q
    cases hk0 : lookupD d k0 with
    | none => rw [backInjectors, hk0] at hb; exact Option.noConfusion hb
    | some sk0 =>
      cases hl0 : mapShort d l0 with
      | none =>
        rw [backInjectors, hk0, hl0] at hb
        cases ht : backInjectors d t <;> rw [ht] at hb <;>
          exact Option.noConfusion hb
      | some sl0 =>
        cases ht : backInjectors d t with
        | none =>
          rw [backInjectors, hk0, hl0, ht] at hb
          exact Option.noConfusion hb
        | some rest =>
          rw [backInjectors, hk0, hl0, ht] at hb
          have hback : back = (sk0, sl0) :: rest := (Option.some.inj hb).symm
          subst hback
          rcases List.mem_cons.mp hp with he | hm
          · subst he
            exact ⟨k0, l0, List.mem_cons_self _ _, hk0, hl0⟩
          · obtain ⟨k, l, h1, h2, h3⟩ := ih ht hm
            exact ⟨k, l, List.mem_cons_of_mem _ h1, h2, h3⟩

/-! ## Claim theorems -/

/-- C1: for every node in either pass, if the process-wide engine state is
USER_STOPPED or FAILED at the moment the compute function of the node
runs, the node fails immediately and neither execute nor output_resources
of its item is invoked. -/
theorem c1_fail_fast_short_circuit {α : Type} (ps : PassState α)
    (ns : NodeSpec α) (dir : String)
    (hst : ps.engine = SpineEngineState.USER_STOPPED ∨
      ps.engine = SpineEngineState.FAILED)
    (hp : ns.injectors.all (predOk ps.results) = true) :
    (stepNode ps ns dir).results =
      ps.results ++ [(ns.item.short_name, NodeStatus.failed)] ∧
    (stepNode ps ns dir).calls = ps.calls := by
  have hc := computeFn_stuck ps.engine ns.permit ns.item
    (gatherInputs ps.results ns.injectors) dir hst
  constructor <;> simp [stepNode, hp, hc]

/-- Closed instance of c1 at a FAILED engine state. -/
theorem c1_fail_fast_short_circuit_witness :
    (witPSF.engine = SpineEngineState.USER_STOPPED ∨
      witPSF.engine = SpineEngineState.FAILED) ∧
    ({ item := witItemT, injectors := ["p"], permit := true } :
        NodeSpec Nat).injectors.all (predOk witPSF.results) = true ∧
    ((stepNode witPSF
        { item := witItemT, injectors := ["p"], permit := true } "forward").results =
      witPSF.results ++ [(witItemT.short_name, NodeStatus.failed)] ∧
     (stepNode witPSF
        { item := witItemT, injectors := ["p"], permit := true } "forward").calls =
      witPSF.calls) :=
  ⟨Or.inr rfl, rfl,
    c1_fail_fast_short_circuit witPSF
      { item := witItemT, injectors := ["p"], permit := true } "forward"
      (Or.inr rfl) rfl⟩

/-- C2: for every item whose execution permit is false and whose node is
reached with the engine state still RUNNING and all predecessors
succeeded, execute is never invoked, output_resources is invoked and its
result is recorded as the output of the node; and a succeeded
predecessor output is delivered into the gathered input set of every
dependent node that computes. -/
theorem c2_permit_false_pass_through {α : Type} :
    (∀ (ps : PassState α) (ns : NodeSpec α) (dir : String),
      ps.engine = SpineEngineState.RUNNING →
      ns.injectors.all (predOk ps.results) = true →
      ns.permit = false →
      (stepNode ps ns dir).results = ps.results ++
        [(ns.item.short_name,
          NodeStatus.succeeded (ns.item.output_resources dir))] ∧
      (stepNode ps ns dir).calls = ps.calls ++
        [(ns.item.short_name, Call.outRes dir)]) ∧
    (∀ (ps : PassState α) (B : NodeSpec α) (dir A : String) (out : List α),
      statusOf ps.results A = some (NodeStatus.succeeded out) →
      A ∈ B.injectors →
      B.injectors.all (predOk ps.results) = true →
      (stepNode ps B dir).inputsLog = ps.inputsLog ++
        [(B.item.short_name, gatherInputs ps.results B.injectors)] ∧
      out ∈ gatherInputs ps.results B.injectors) := by
  constructor
  · intro ps ns dir hst hp hperm
    constructor <;> simp [stepNode, hp, computeFn, hst, hperm]
  · intro ps B dir A out hA hmem hp
    constructor
    · cases hc : (computeFn ps.engine B.permit B.item
          (gatherInputs ps.results B.injectors) dir).1 <;>
        simp [stepNode, hp, hc]
    · have hout : outputOf ps.results A = out := by
        rw [outputOf, hA]
      rw [← hout]
      exact List.mem_map_of_mem (outputOf ps.results) hmem

/-- Closed instance of c2 at a permit-false node whose predecessor
succeeded with output [5]. -/
theorem c2_permit_false_pass_through_witness :
    (witPSP.engine = SpineEngineState.RUNNING ∧
     witNodePF.injectors.all (predOk witPSP.results) = true ∧
     witNodePF.permit = false ∧
     statusOf witPSP.results "p" = some (NodeStatus.succeeded [5]) ∧
     "p" ∈ witNodePF.injectors) ∧
    ((stepNode witPSP witNodePF "forward").results = witPSP.results ++
        [(witNodePF.item.short_name,
          NodeStatus.succeeded (witNodePF.item.output_resources "forward"))] ∧
     (stepNode witPSP witNodePF "forward").calls = witPSP.calls ++
        [(witNodePF.item.short_name, Call.outRes "forward")]) ∧
    [5] ∈ gatherInputs witPSP.results witNodePF.injectors :=
  ⟨⟨rfl, rfl, rfl, rfl, List.Mem.head _⟩,
    (c2_permit_false_pass_through (α := Nat)).1 witPSP witNodePF "forward"
      rfl rfl rfl,
    ((c2_permit_false_pass_through (α := Nat)).2 witPSP witNodePF "forward"
      "p" [5] rfl (List.Mem.head _) rfl).2⟩

/-- C3: a node with permit true that passes the fail-fast check invokes
execute of its item on the concatenation of the outputs of its
predecessors; a false return makes the node fail, produces no output and
no output_resources call, and every transitive dependent of a failed
node is skipped in that pass. -/
theorem c3_execute_failure_and_cascade {α : Type} :
    (∀ (ps : PassState α) (ns : NodeSpec α) (dir : String),
      ps.engine = SpineEngineState.RUNNING →
      ns.injectors.all (predOk ps.results) = true →
      ns.permit = true →
      ns.item.execute (gatherInputs ps.results ns.injectors).flatten dir = false →
      (stepNode ps ns dir).results =
        ps.results ++ [(ns.item.short_name, NodeStatus.failed)] ∧
      (stepNode ps ns dir).calls = ps.calls ++
        [(ns.item.short_name,
          Call.exec (gatherInputs ps.results ns.injectors).flatten dir)]) ∧
    (∀ (nodes : List (NodeSpec α)) (dir : String) (st0 : SpineEngineState)
        (A B : String),
      (nodes.map (fun ns => ns.item.short_name)).Nodup →
      statusOf (runPass nodes dir st0).results A = some NodeStatus.failed →
      TransDep nodes A B →
      statusOf (runPass nodes dir st0).results B = some NodeStatus.skipped) := by
  constructor
  · intro ps ns dir hst hp hperm hexec
    constructor <;> simp [stepNode, hp, computeFn, hst, hperm, hexec]
  · intro nodes dir st0 A B hnd hfail hdep
    refine skip_cascade hnd ?_ hdep
    intro out hc
    have hcontra := hfail.symm.trans hc
    simp at hcontra

/-- Closed instance of c3: a failing node with no predecessors, and its
dependent skipped in the same pass. -/
theorem c3_execute_failure_and_cascade_witness :
    (witPSRun.engine = SpineEngineState.RUNNING ∧
     witNodeF.permit = true ∧
     witNodeF.item.execute
       (gatherInputs witPSRun.results witNodeF.injectors).flatten "forward" = false) ∧
    ((stepNode witPSRun witNodeF "forward").results =
       witPSRun.results ++ [(witNodeF.item.short_name, NodeStatus.failed)]) ∧
    (([witNodeF, witNodeDep].map (fun ns => ns.item.short_name)).Nodup ∧
     statusOf (runPass [witNodeF, witNodeDep] "forward"
       SpineEngineState.RUNNING).results "f" = some NodeStatus.failed) ∧
    statusOf (runPass [witNodeF, witNodeDep] "forward"
      SpineEngineState.RUNNING).results "t" = some NodeStatus.skipped :=
  ⟨⟨rfl, rfl, rfl⟩,
    ((c3_execute_failure_and_cascade (α := Nat)).1 witPSRun witNodeF "forward"
      rfl rfl rfl rfl).1,
    ⟨by decide, rfl⟩,
    (c3_execute_failure_and_cascade (α := Nat)).2 [witNodeF, witNodeDep]
      "forward" SpineEngineState.RUNNING "f" "t" (by decide) rfl
      (TransDep.direct (List.Mem.tail _ (List.Mem.head _)) (List.Mem.head _))⟩

/-- C4: during a run, a node-failed step transitions the engine state to
FAILED unless the state is already USER_STOPPED, which is never
overwritten. -/
theorem c4_failure_event_state_transition {α : Type} :
    (∀ (ps : PassState α) (ns : NodeSpec α) (dir : String),
      (stepNode ps ns dir).results =
        ps.results ++ [(ns.item.short_name, NodeStatus.failed)] →
      (stepNode ps ns dir).engine =
        (if ps.engine = SpineEngineState.USER_STOPPED
         then SpineEngineState.USER_STOPPED else SpineEngineState.FAILED)) ∧
    (∀ (ps : PassState α) (ns : NodeSpec α) (dir : String),
      ps.engine = SpineEngineState.USER_STOPPED →
      (stepNode ps ns dir).engine = SpineEngineState.USER_STOPPED) := by
  constructor
  · intro ps ns dir hres
    rcases stepNode_cases ps ns dir with ⟨heng, st, hstne, hres2⟩ | ⟨heng, hres2⟩
    · exfalso
      have h1 : [(ns.item.short_name, st)] =
          [(ns.item.short_name, NodeStatus.failed)] :=
        List.append_cancel_left (hres2.symm.trans hres)
      simp at h1
      exact hstne h1
    · rw [heng, onStepFailure]
      by_cases hus : ps.engine = SpineEngineState.USER_STOPPED
      · simp [hus]
      · simp [hus]
  · intro ps ns dir hus
    rcases stepNode_cases ps ns dir with ⟨heng, _⟩ | ⟨heng, _⟩
    · rw [heng, hus]
    · rw [heng, hus]
      rfl

/-- Closed instance of c4: a failed step from RUNNING moves the engine to
FAILED, and a step from USER_STOPPED leaves it at USER_STOPPED. -/
theorem c4_failure_event_state_transition_witness :
    ((stepNode witPSRun witNodeF "forward").results =
      witPSRun.results ++ [(witNodeF.item.short_name, NodeStatus.failed)]) ∧
    ((stepNode witPSRun witNodeF "forward").engine =
      (if witPSRun.engine = SpineEngineState.USER_STOPPED
       then SpineEngineState.USER_STOPPED else SpineEngineState.FAILED)) ∧
    (witPSUS.engine = SpineEngineState.USER_STOPPED ∧
     (stepNode witPSUS witNodeF "forward").engine =
       SpineEngineState.USER_STOPPED) :=
  ⟨rfl,
    (c4_failure_event_state_transition (α := Nat)).1 witPSRun witNodeF
      "forward" rfl,
    rfl,
    (c4_failure_event_state_transition (α := Nat)).2 witPSUS witNodeF
      "forward" rfl⟩

theorem run_backward_def {α : Type} (e : SpineEngineM α) :
    (run e).backward = runPassAux
      { engine := SpineEngineState.RUNNING, results := [], inputsLog := [],
        calls := [] } e.backNodes "backward" := rfl

theorem run_forward_def {α : Type} (e : SpineEngineM α) :
    (run e).forward = runPassAux
      { engine := (runPassAux
          { engine := SpineEngineState.RUNNING, results := [], inputsLog := [],
            calls := [] } e.backNodes "backward").engine,
        results := [], inputsLog := [], calls := [] }
      e.forwardNodes "forward" := rfl

theorem run_state_def {α : Type} (e : SpineEngineM α) :
    (run e).state = (if (run e).forward.engine = SpineEngineState.RUNNING
      then SpineEngineState.COMPLETED else (run e).forward.engine) := rfl

/-- C5: when run finishes both passes, a still-RUNNING state becomes
COMPLETED (exactly when no node failed in either pass), a failure in
either pass makes the final state FAILED, and the final state is never
left at RUNNING or SLEEPING. -/
theorem c5_run_final_state {α : Type} (e : SpineEngineM α) :
    ((run e).state = SpineEngineState.COMPLETED ↔
      (hasFailed (run e).backward.results = false ∧
       hasFailed (run e).forward.results = false)) ∧
    ((hasFailed (run e).backward.results = true ∨
      hasFailed (run e).forward.results = true) →
      (run e).state = SpineEngineState.FAILED) ∧
    (run e).state ≠ SpineEngineState.RUNNING ∧
    (run e).state ≠ SpineEngineState.SLEEPING := by
  obtain ⟨suf1, hsuf1, hd1⟩ := runPassAux_engine_dichotomy e.backNodes
    { engine := SpineEngineState.RUNNING, results := [], inputsLog := [],
      calls := [] } "backward" rfl
  have hbres : (run e).backward.results = suf1 := by
    rw [run_backward_def, hsuf1]
    simp
  rcases hd1 with ⟨hbeng, hbfail⟩ | ⟨hbeng, hbfail⟩
  · obtain ⟨suf2, hsuf2, hd2⟩ := runPassAux_engine_dichotomy e.forwardNodes
      { engine := (runPassAux
          { engine := SpineEngineState.RUNNING, results := [], inputsLog := [],
            calls := [] } e.backNodes "backward").engine,
        results := [], inputsLog := [], calls := [] } "forward" hbeng
    have hfres : (run e).forward.results = suf2 := by
      rw [run_forward_def, hsuf2]
      simp
    rcases hd2 with ⟨hfeng, hffail⟩ | ⟨hfeng, hffail⟩
    · have hstate : (run e).state = SpineEngineState.COMPLETED := by
        rw [run_state_def, run_forward_def, hfeng]
        simp
      refine ⟨⟨fun _ => ⟨?_, ?_⟩, fun _ => hstate⟩, ?_, ?_, ?_⟩
      · rw [hbres]
        exact hbfail
      · rw [hfres]
        exact hffail
      · intro hor
        exfalso
        rcases hor with h | h
        · rw [hbres] at h
          exact Bool.noConfusion (hbfail.symm.trans h)
        · rw [hfres] at h
          exact Bool.noConfusion (hffail.symm.trans h)
      · rw [hstate]
        simp
      · rw [hstate]
        simp
    · have hstate : (run e).state = SpineEngineState.FAILED := by
        rw [run_state_def, run_forward_def, hfeng]
        simp
      refine ⟨⟨fun hc => ?_, fun hc => ?_⟩, fun _ => hstate, ?_, ?_⟩
      · exact absurd (hstate.symm.trans hc) (by simp)
      · exfalso
        obtain ⟨_, h2⟩ := hc
        rw [hfres] at h2
        exact Bool.noConfusion (h2.symm.trans hffail)
      · rw [hstate]
        simp
      · rw [hstate]
        simp
  · have key : ∀ st : SpineEngineState, st = SpineEngineState.FAILED →
        (runPassAux ({ engine := st, results := [], inputsLog := [], calls := [] } : PassState α) e.forwardNodes "forward").engine =
          SpineEngineState.FAILED := by
      intro st hst
      subst hst
      exact runPassAux_engine_held _ _ _ rfl
    have hfe : (run e).forward.engine = SpineEngineState.FAILED := by
      rw [run_forward_def]
      exact key _ hbeng
    have hstate : (run e).state = SpineEngineState.FAILED := by
      rw [run_state_def, hfe]
      simp
    refine ⟨⟨fun hc => ?_, fun hc => ?_⟩, fun _ => hstate, ?_, ?_⟩
    · exact absurd (hstate.symm.trans hc) (by simp)
    · exfalso
      obtain ⟨h1, _⟩ := hc
      rw [hbres] at h1
      exact Bool.noConfusion (h1.symm.trans hbfail)
    · rw [hstate]
      simp
    · rw [hstate]
      simp

/-- Closed instance of c5: an engine with no nodes completes, with no
failure in either pass. -/
theorem c5_run_final_state_witness :
    (hasFailed (run (⟨[], [], SpineEngineState.SLEEPING⟩ :
        SpineEngineM Nat)).backward.results = false ∧
     hasFailed (run (⟨[], [], SpineEngineState.SLEEPING⟩ :
        SpineEngineM Nat)).forward.results = false) ∧
    (run (⟨[], [], SpineEngineState.SLEEPING⟩ : SpineEngineM Nat)).state =
      SpineEngineState.COMPLETED :=
  ⟨⟨rfl, rfl⟩,
    (c5_run_final_state (⟨[], [], SpineEngineState.SLEEPING⟩ :
      SpineEngineM Nat)).1.mpr ⟨rfl, rfl⟩⟩

/-- C6: at construction the backward injector map translates every
successor entry through the short-name map, the forward injector map is
its exact relation inverse, and these are the only entries of either
map. -/
theorem c6_injector_maps_construction {α : Type} (items : List (Item α))
    (successors : List (String × List String))
    (back : List (String × List String))
    (hb : backInjectors (nameMap items) successors = some back) :
    (∀ k l, (k, l) ∈ successors → ∃ sk sl,
        lookupD (nameMap items) k = some sk ∧
        mapShort (nameMap items) l = some sl ∧ (sk, sl) ∈ back) ∧
    (∀ p : String × List String, p ∈ back → ∃ k l, (k, l) ∈ successors ∧
        lookupD (nameMap items) k = some p.1 ∧
        mapShort (nameMap items) l = some p.2) ∧
    (∀ i s, (∃ l, (i, l) ∈ back ∧ s ∈ l) ↔
        i ∈ lookupLS (_inverted back) s) ∧
    (∀ s, lookupD (_inverted back) s ≠ none ↔
        ∃ i l, (i, l) ∈ back ∧ s ∈ l) := by
  refine ⟨fun k l hkl => backInjectors_mem hb hkl,
    fun p hp => backInjectors_mem_rev hb hp, ?_, ?_⟩
  · intro i s
    rw [lookupLS_inverted]
    exact mem_invList.symm
  · intro s
    rw [lookupD_inverted]
    by_cases h : invList back s = []
    · rw [if_pos h]
      constructor
      · intro hc
        exact absurd rfl hc
      · rintro ⟨i, l, hm, hs⟩
        exact absurd h (List.ne_nil_of_mem (mem_invList.mpr ⟨l, hm, hs⟩))
    · rw [if_neg h]
      constructor
      · intro _
        obtain ⟨i, hi⟩ := List.exists_mem_of_ne_nil _ h
        obtain ⟨l, hm, hs⟩ := mem_invList.mp hi
        exact ⟨i, l, hm, hs⟩
      · intro _
        simp

/-- Closed instance of c6 on a two-item workflow with one edge. -/
theorem c6_injector_maps_construction_witness :
    backInjectors (nameMap [witItemT, witItemF]) [("item t", ["item f"])] =
      some [("t", ["f"])] ∧
    "t" ∈ lookupLS (_inverted [("t", ["f"])]) "f" :=
  ⟨rfl,
    ((c6_injector_maps_construction [witItemT, witItemF]
        [("item t", ["item f"])] [("t", ["f"])] rfl).2.2.1 "t" "f").mp
      ⟨["f"], List.Mem.head _, List.Mem.head _⟩⟩

/-- C7 as stated fails: stop invoked on a COMPLETED engine overwrites the
terminal state with USER_STOPPED instead of leaving it unchanged. -/
theorem c7_stop_after_completed_changes_state :
    (⟨[], [], SpineEngineState.COMPLETED⟩ : SpineEngineM Nat).state =
      SpineEngineState.COMPLETED ∧
    (stop (⟨[], [], SpineEngineState.COMPLETED⟩ : SpineEngineM Nat)).state ≠
      (⟨[], [], SpineEngineState.COMPLETED⟩ : SpineEngineM Nat).state := by
  constructor <;> decide

/-- C7 corrected: reading the state never changes it, and stop always
sets the state to USER_STOPPED, so calling stop again is a no-op exactly
when the state is already USER_STOPPED, and stopping twice is
idempotent; after FAILED or COMPLETED, stop overwrites the terminal
state. -/
theorem c7_stop_overwrites_terminal {α : Type} (e : SpineEngineM α) :
    (stop e).state = SpineEngineState.USER_STOPPED ∧
    (stop (stop e)).state = (stop e).state ∧
    (e.state = SpineEngineState.USER_STOPPED → (stop e).state = e.state) := by
  refine ⟨rfl, rfl, fun h => ?_⟩
  rw [h]
  rfl

/-- Closed instance of the corrected c7 at a USER_STOPPED engine. -/
theorem c7_stop_overwrites_terminal_witness :
    (⟨[], [], SpineEngineState.USER_STOPPED⟩ : SpineEngineM Nat).state =
      SpineEngineState.USER_STOPPED ∧
    (stop (⟨[], [], SpineEngineState.USER_STOPPED⟩ : SpineEngineM Nat)).state =
      (⟨[], [], SpineEngineState.USER_STOPPED⟩ : SpineEngineM Nat).state :=
  ⟨rfl, (c7_stop_overwrites_terminal
    (⟨[], [], SpineEngineState.USER_STOPPED⟩ : SpineEngineM Nat)).2.2 rfl⟩

/-- C8 as stated fails: double inversion drops keys with empty successor
lists, so it is not the identity on injector maps. -/
theorem c8_double_inversion_not_identity :
    _inverted (_inverted [("a", ([] : List String))]) ≠
      [("a", ([] : List String))] ∧
    lookupD (_inverted (_inverted [("a", ([] : List String))])) "a" ≠
      lookupD [("a", ([] : List String))] "a" := by
  constructor <;> decide

/-- C8 corrected: for maps with distinct keys, applying the inversion
twice preserves exactly the edge relation of the map, membership in the
looked-up value lists being unchanged. -/
theorem c8_double_inversion_edge_membership
    (m : List (String × List String)) (h : (m.map Prod.fst).Nodup)
    (k v : String) :
    v ∈ lookupLS (_inverted (_inverted m)) k ↔ v ∈ lookupLS m k := by
  rw [lookupLS_inverted, mem_invList]
  constructor
  · rintro ⟨l, hm, hk⟩
    have hlk : lookupD (_inverted m) v = some l :=
      (lookupD_eq_some_iff_mem (nodup_keys_inverted m) v l).mpr hm
    rw [lookupD_inverted] at hlk
    by_cases hnil : invList m v = []
    · rw [if_pos hnil] at hlk
      exact Option.noConfusion hlk
    · rw [if_neg hnil] at hlk
      have hleq : l = invList m v := (Option.some.inj hlk).symm
      subst hleq
      obtain ⟨l2, hm2, hv2⟩ := mem_invList.mp hk
      have hlk2 : lookupD m k = some l2 :=
        (lookupD_eq_some_iff_mem h k l2).mpr hm2
      rw [lookupLS, hlk2]
      exact hv2
  · intro hv
    obtain ⟨l2, hlk2, hv2⟩ := mem_lookupLS_iff.mp hv
    have hm2 : (k, l2) ∈ m := (lookupD_eq_some_iff_mem h k l2).mp hlk2
    have hkinv : k ∈ invList m v := mem_invList.mpr ⟨l2, hm2, hv2⟩
    refine ⟨invList m v, ?_, hkinv⟩
    have hsome : lookupD (_inverted m) v = some (invList m v) := by
      rw [lookupD_inverted, if_neg (List.ne_nil_of_mem hkinv)]
    exact (lookupD_eq_some_iff_mem (nodup_keys_inverted m) v _).mp hsome

/-- Closed instance of the corrected c8 on a one-edge map. -/
theorem c8_double_inversion_edge_membership_witness :
    (([("a", ["b"])].map Prod.fst).Nodup) ∧
    "b" ∈ lookupLS (_inverted (_inverted [("a", ["b"])])) "a" :=
  ⟨by decide, (c8_double_inversion_edge_membership [("a", ["b"])]
      (by decide) "a" "b").mpr (by decide)⟩

/-- C9: a successor-list name that is not the name of any known item
makes engine construction fail synchronously, before any run takes
place. -/
theorem c9_unknown_successor_name {α : Type} (items : List (Item α))
    (successors : List (String × List String))
    (permits : List (String × Bool)) (k x : String) (l : List String)
    (hkl : (k, l) ∈ successors) (hx : x ∈ l)
    (hunknown : x ∉ items.map Item.name) :
    mkEngine items successors permits = none := by
  have hnone : lookupD (nameMap items) x = none := by
    rw [lookupD_eq_none_iff, nameMap_keys]
    exact hunknown
  have hms : mapShort (nameMap items) l = none := mapShort_none_of_mem hx hnone
  have hbi : backInjectors (nameMap items) successors = none :=
    backInjectors_none hkl hms
  rw [mkEngine, hbi]

/-- Closed instance of c9: successor list naming an unknown item. -/
theorem c9_unknown_successor_name_witness :
    (("item t", ["item x"]) ∈ [("item t", ["item x"])] ∧
     "item x" ∈ ["item x"] ∧
     "item x" ∉ [witItemT, witItemF].map Item.name) ∧
    mkEngine [witItemT, witItemF] [("item t", ["item x"])]
      [("item t", true), ("item f", true)] = none :=
  ⟨⟨List.Mem.head _, List.Mem.head _, by decide⟩,
    c9_unknown_successor_name [witItemT, witItemF] [("item t", ["item x"])]
      [("item t", true), ("item f", true)] "item t" "item x" ["item x"]
      (List.Mem.head _) (List.Mem.head _) (by decide)⟩

/-- C10: run sets the state to RUNNING unconditionally whatever the prior
state, so a stop before run is overwritten and the workflow executes
anyway; no SLEEPING precondition is enforced. -/
theorem c10_run_ignores_prior_state {α : Type} (e : SpineEngineM α)
    (s : SpineEngineState) :
    run (setState e s) = run e ∧
    run (stop e) = run e ∧
    (run (stop e)).backward =
      runPass e.backNodes "backward" SpineEngineState.RUNNING := by
  cases e
  exact ⟨rfl, rfl, rfl⟩

end SpineEngine
